import Mathlib

/-!
Verification development for the notes-publishing pipeline in
`automatic_notes_upload.py` (class `NotesPublisher`).

The Python source is shallowly embedded: strings become `List Char`,
byte strings become `List Nat` (each element < 256), the wall clock and
the filesystem become explicit parameters, and every function is a
computable Lean definition mirroring the corresponding Python code
line by line.  Python regular-expression substitutions are embedded as
recursive scanners implementing the exact leftmost, (non-)greedy
semantics of the concrete patterns used by the source.
-/

/-- Convert a Lean string literal to the `List Char` representation used
throughout this development. -/
def strL (x : String) : List Char := x.data

/-- Python `\s` (ASCII range): the six whitespace characters recognised by
`str.strip()` / `re` on the inputs considered here. -/
def isPySpace (c : Char) : Bool :=
  c = ' ' || c = '\t' || c = '\n' || c = '\r' || c = '\x0b' || c = '\x0c'

/-- Python `\w` (ASCII range): letters, digits and underscore. -/
def isWordChar (c : Char) : Bool :=
  ('a' ≤ c && c ≤ 'z') || ('A' ≤ c && c ≤ 'Z') || ('0' ≤ c && c ≤ '9') || c = '_'

/-- Python `\d` (ASCII range). -/
def isDigitChar (c : Char) : Bool := '0' ≤ c && c ≤ '9'

theorem length_dropWhile_le {α : Type} (p : α → Bool) (l : List α) :
    (l.dropWhile p).length ≤ l.length :=
  (List.dropWhile_sublist p).length_le

/-- Python `str.strip()`: drop leading and trailing whitespace. -/
def pyStrip (l : List Char) : List Char :=
  ((l.dropWhile isPySpace).reverse.dropWhile isPySpace).reverse

/-- Python `str.split(sep)` for a one-character separator: keeps empty
pieces, `[] ↦ [[]]`. -/
def splitOnChar (sep : Char) : List Char → List (List Char)
  | [] => [[]]
  | c :: t =>
    if c = sep then [] :: splitOnChar sep t
    else
      match splitOnChar sep t with
      | h :: r => (c :: h) :: r
      | [] => [[c]]

/-- Python `str.split(sep)` for a multi-character separator `sep ≠ ""`:
split at each non-overlapping occurrence, left to right.  The `fuel`
argument only forces structural termination; any `fuel ≥ l.length`
gives the same result. -/
def splitOnStrAux (sep : List Char) : Nat → List Char → List (List Char)
  | 0, _ => [[]]
  | _, [] => [[]]
  | fuel + 1, c :: t =>
    if sep.isPrefixOf (c :: t) then
      [] :: splitOnStrAux sep fuel (t.drop (sep.length - 1))
    else
      match splitOnStrAux sep fuel t with
      | h :: r => (c :: h) :: r
      | [] => [[c]]

def splitOnStr (sep l : List Char) : List (List Char) :=
  splitOnStrAux sep l.length l

/-- Index of the first occurrence of `sub` in `l` (`none` if absent):
the numeric core of Python `str.find`. -/
def findIdx : List Char → List Char → Option Nat
  | [],     sub => if sub.isEmpty then some 0 else none
  | c :: t, sub =>
    if sub.isPrefixOf (c :: t) then some 0
    else (findIdx t sub).map (· + 1)

/-- Python `str.find`: first index of `sub` in `l`, `-1` when absent. -/
def pyFind (l sub : List Char) : Int :=
  match findIdx l sub with
  | some n => (n : Int)
  | none => -1

/-- Resolve a Python slice index against a list of length `len`:
negative indices count from the end, then the result is clamped to
`[0, len]`. -/
def clampIdx (len : Nat) (i : Int) : Nat :=
  let j : Int := if i < 0 then i + len else i
  if j < 0 then 0 else min j.toNat len

/-- Python `s[a:b]`. -/
def pySlice (s : List Char) (a b : Int) : List Char :=
  (s.take (clampIdx s.length b)).drop (clampIdx s.length a)

/-- Python `s[:b]`. -/
def pySliceTo (s : List Char) (b : Int) : List Char :=
  s.take (clampIdx s.length b)

/-- Python `s[a:]`. -/
def pySliceFrom (s : List Char) (a : Int) : List Char :=
  s.drop (clampIdx s.length a)

/-- Executable substring test: `true` iff `sub` occurs inside `l`
(`Python sub in l`). -/
def containsStr (sub : List Char) : List Char → Bool
  | [] => sub.isEmpty
  | c :: t => sub.isPrefixOf (c :: t) || containsStr sub t

/-- Timestamps as produced by `datetime.now()`, to second precision as
used by the source's `strftime` calls. -/
structure DateTime where
  year : Nat
  month : Nat
  day : Nat
  hour : Nat
  minute : Nat
  second : Nat
deriving DecidableEq

/-- A parsed note record, as built by `get_notes_with_images`
(lines 96-101 of the source). -/
structure Note where
  title : List Char
  content : List Char
  images : List (List Char)
  modifiedDate : DateTime
deriving DecidableEq

/-- `[img.strip() for img in images_str.split(',') if img.strip()]`
(line 94). -/
def parseImages (imagesStr : List Char) : List (List Char) :=
  ((splitOnChar ',' imagesStr).map pyStrip).filter (fun i => !i.isEmpty)

/-- The per-fragment body of the parsing loop of `get_notes_with_images`
(lines 82-101): carve title / content / images out of one fragment using
`str.find` and Python slicing, and stamp the record with the wall-clock
time `now` of the run (`datetime.now()`, line 100). -/
def parseFragment (frag : List Char) (now : DateTime) : Note :=
  let titleEnd : Int := pyFind frag (strL "content:")
  let title := pyStrip (pySliceTo frag titleEnd)
  let contentStart : Int := titleEnd + 8
  let contentEnd : Int := pyFind frag (strL "images:")
  let content := pyStrip (pySlice frag contentStart contentEnd)
  let imagesStr := pyStrip (pySliceFrom frag (contentEnd + 7))
  ⟨title, content, parseImages imagesStr, now⟩

/-- The parsing stage of `get_notes_with_images` (lines 74-107): the
AppleScript `stdout` is stripped, split on the boundary token
`"title:"`, the first piece is skipped, and every remaining fragment
yields one record. `now` is the wall-clock time of the run. -/
def parseNotes (stdout : List Char) (now : DateTime) : List Note :=
  ((splitOnStr (strL "title:") (pyStrip stdout)).drop 1).map
    (fun frag => parseFragment frag now)

/-- `re.findall(r'#(\w+)', content)` (line 180): scan left to right; at
each `#` take the maximal (greedy) nonempty run of word characters as
one capture, continuing after it; otherwise advance one character. -/
def findTagsAux : Nat → List Char → List (List Char)
  | 0, _ => []
  | _, [] => []
  | fuel + 1, c :: rest =>
    if c = '#' then
      let run := rest.takeWhile isWordChar
      if run.isEmpty then findTagsAux fuel rest
      else run :: findTagsAux fuel (rest.dropWhile isWordChar)
    else findTagsAux fuel rest

def findTags (l : List Char) : List (List Char) := findTagsAux l.length l

/-- `re.sub(r'\s#(\w+)(?=\s|$)', r' \1', content)` (line 183): a
whitespace character followed by `#` and a maximal nonempty word run is
replaced by a space and the bare word, provided the lookahead (next
character is whitespace, or end of string — which also covers Python's
`$` before a trailing newline, a whitespace character) succeeds;
scanning resumes at the unconsumed lookahead character. -/
def stripTagsAux : Nat → List Char → List Char
  | 0, l => l
  | _, [] => []
  | _ + 1, [c] => [c]
  | fuel + 1, c :: d :: rest =>
    if isPySpace c && d = '#' then
      let run := rest.takeWhile isWordChar
      let rest' := rest.dropWhile isWordChar
      if !run.isEmpty && (rest'.isEmpty || isPySpace (rest'.headD ' ')) then
        ' ' :: (run ++ stripTagsAux fuel rest')
      else c :: stripTagsAux fuel (d :: rest)
    else c :: stripTagsAux fuel (d :: rest)

def stripTags (l : List Char) : List Char := stripTagsAux l.length l

/-- `re.sub(r'•\s', '* ', content)` (line 187): a bullet glyph followed
by one whitespace character becomes `"* "`. -/
def bulletSub : List Char → List Char
  | [] => []
  | c :: rest =>
    if c = '•' then
      match rest with
      | [] => [c]
      | s :: r2 =>
        if isPySpace s then '*' :: ' ' :: bulletSub r2
        else c :: bulletSub (s :: r2)
    else c :: bulletSub rest

/-- `re.sub(r'^\d+\.\s', '1. ', content, flags=re.MULTILINE)`
(line 190): at a line start (string start or just after a newline), a
maximal digit run followed by `.` and one whitespace character becomes
`"1. "`.  The Boolean argument tracks whether the scan position is a
line start. -/
def numberedAux : Nat → Bool → List Char → List Char
  | 0, _, l => l
  | _, _, [] => []
  | fuel + 1, atStart, c :: rest =>
    if atStart && isDigitChar c then
      match rest.dropWhile isDigitChar with
      | '.' :: s :: r2 =>
        if isPySpace s then '1' :: '.' :: ' ' :: numberedAux fuel (s = '\n') r2
        else c :: numberedAux fuel false rest
      | _ => c :: numberedAux fuel false rest
    else c :: numberedAux fuel (c = '\n') rest

/-- The numbered-list rewrite starts at a line start (string start). -/
def numberedSub (l : List Char) : List Char := numberedAux l.length true l

/-- `re.sub(r'☐', '- [ ]', content)` (line 193). -/
def openBoxSub (l : List Char) : List Char :=
  l.flatMap (fun c => if c = '☐' then strL "- [ ]" else [c])

/-- `re.sub(r'☑', '- [x]', content)` (line 194). -/
def checkedBoxSub (l : List Char) : List Char :=
  l.flatMap (fun c => if c = '☑' then strL "- [x]" else [c])

/-- Matching core of the emphasis patterns `_(.+?)_` / `\*(.+?)\*`
after an opening delimiter `d` has been seen: find the shortest
nonempty group of non-newline characters followed by a closing `d`
(the lazy `.+?`); return the group and the remainder after the closing
delimiter. -/
def findClose (d : Char) : List Char → Option (List Char × List Char)
  | [] => none
  | c :: rest =>
    if c = '\n' then none
    else
      match rest with
      | [] => none
      | e :: rest' =>
        if e = d then some ([c], rest')
        else (findClose d rest).map (fun p => (c :: p.1, p.2))

/-- `findClose` decomposes its input: a successful match carves the
input as `group ++ d :: remainder`. -/
theorem findClose_eq_append (d : Char) :
    ∀ (l g r : List Char), findClose d l = some (g, r) → l = g ++ d :: r := by
  intro l
  induction l with
  | nil => intro g r h; simp [findClose] at h
  | cons c rest ih =>
    intro g r h
    cases rest with
    | nil =>
      simp only [findClose] at h
      by_cases hc : c = '\n' <;> simp [hc] at h
    | cons e rest' =>
      simp only [findClose] at h
      by_cases hc : c = '\n'
      · simp [hc] at h
      · simp only [hc, if_false] at h
        by_cases he : e = d
        · simp only [he, if_true, Option.some.injEq, Prod.mk.injEq] at h
          obtain ⟨hg, hr⟩ := h
          subst hg; subst hr; simp [he]
        · simp only [he, if_false, Option.map_eq_some'] at h
          obtain ⟨⟨g1, r1⟩, hf, heq⟩ := h
          have := ih g1 r1 hf
          simp only [Prod.mk.injEq] at heq
          obtain ⟨hg, hr⟩ := heq
          subst hg; subst hr
          simp [this]

/-- `re.sub(r'_(.+?)_', r'*\1*', content)` (line 197): lazy leftmost
matching; a matched group is emitted wrapped in single asterisks and
scanning resumes after the closing underscore. -/
def italicSubAux : Nat → List Char → List Char
  | 0, l => l
  | _, [] => []
  | fuel + 1, c :: rest =>
    if c = '_' then
      match findClose '_' rest with
      | some (g, r) => '*' :: (g ++ '*' :: italicSubAux fuel r)
      | none => c :: italicSubAux fuel rest
    else c :: italicSubAux fuel rest

def italicSub (l : List Char) : List Char := italicSubAux l.length l

/-- `re.sub(r'\*(.+?)\*', r'**\1**', content)` (line 198): lazy
leftmost matching; a matched group is emitted wrapped in double
asterisks and scanning resumes after the closing asterisk. -/
def boldSubAux : Nat → List Char → List Char
  | 0, l => l
  | _, [] => []
  | fuel + 1, c :: rest =>
    if c = '*' then
      match findClose '*' rest with
      | some (g, r) => '*' :: '*' :: (g ++ '*' :: '*' :: boldSubAux fuel r)
      | none => c :: boldSubAux fuel rest
    else c :: boldSubAux fuel rest

def boldSub (l : List Char) : List Char := boldSubAux l.length l

/-- `"\n\n".join(processed_images)` (line 209). -/
def joinSep (sep : List Char) : List (List Char) → List Char
  | [] => []
  | [x] => x
  | x :: y :: rest => x ++ sep ++ joinSep sep (y :: rest)

/-- `process_content` (lines 177-211).  The Image Materializer is the
filesystem-effect collaborator `copy_image_to_assets`; it is passed in
as `mat : List Char → Option (List Char)` (`none` models the `None`
returned on any failure, `some p` the published path). -/
def processContent (content : List Char)
    (mat : List Char → Option (List Char)) (images : List (List Char)) :
    List Char × List (List Char) :=
  let tags := findTags content
  let c1 := stripTags content
  let c2 := bulletSub c1
  let c3 := numberedSub c2
  let c4 := openBoxSub c3
  let c5 := checkedBoxSub c4
  let c6 := italicSub c5
  let c7 := boldSub c6
  let processedImages := images.filterMap
    (fun p => (mat p).map (fun np => strL "![Image](" ++ np ++ [')']))
  let final :=
    if processedImages.isEmpty then c7
    else c7 ++ strL "\n\n" ++ joinSep (strL "\n\n") processedImages
  (final, tags)

/-- The 64 per-round shift amounts of MD5 (RFC 1321). -/
def md5S : List Nat :=
  [7, 12, 17, 22, 7, 12, 17, 22, 7, 12, 17, 22, 7, 12, 17, 22,
   5, 9, 14, 20, 5, 9, 14, 20, 5, 9, 14, 20, 5, 9, 14, 20,
   4, 11, 16, 23, 4, 11, 16, 23, 4, 11, 16, 23, 4, 11, 16, 23,
   6, 10, 15, 21, 6, 10, 15, 21, 6, 10, 15, 21, 6, 10, 15, 21]

/-- The 64 sine-derived round constants of MD5 (RFC 1321). -/
def md5K : List Nat :=
  [0xd76aa478, 0xe8c7b756, 0x242070db, 0xc1bdceee,
   0xf57c0faf, 0x4787c62a, 0xa8304613, 0xfd469501,
   0x698098d8, 0x8b44f7af, 0xffff5bb1, 0x895cd7be,
   0x6b901122, 0xfd987193, 0xa679438e, 0x49b40821,
   0xf61e2562, 0xc040b340, 0x265e5a51, 0xe9b6c7aa,
   0xd62f105d, 0x02441453, 0xd8a1e681, 0xe7d3fbc8,
   0x21e1cde6, 0xc33707d6, 0xf4d50d87, 0x455a14ed,
   0xa9e3e905, 0xfcefa3f8, 0x676f02d9, 0x8d2a4c8a,
   0xfffa3942, 0x8771f681, 0x6d9d6122, 0xfde5380c,
   0xa4beea44, 0x4bdecfa9, 0xf6bb4b60, 0xbebfbc70,
   0x289b7ec6, 0xeaa127fa, 0xd4ef3085, 0x04881d05,
   0xd9d4d039, 0xe6db99e5, 0x1fa27cf8, 0xc4ac5665,
   0xf4292244, 0x432aff97, 0xab9423a7, 0xfc93a039,
   0x655b59c3, 0x8f0ccc92, 0xffeff47d, 0x85845dd1,
   0x6fa87e4f, 0xfe2ce6e0, 0xa3014314, 0x4e0811a1,
   0xf7537e82, 0xbd3af235, 0x2ad7d2bb, 0xeb86d391]

/-- 32-bit left rotation on a machine word represented as a `Nat`
below `2 ^ 32`. -/
def rotl32 (x n : Nat) : Nat :=
  (x * 2 ^ n + x / 2 ^ (32 - n)) % 2 ^ 32

/-- MD5 round function F (rounds 0-15). -/
def md5F (b c d : Nat) : Nat := (b &&& c) ||| ((4294967295 - b) &&& d)

/-- MD5 round function G (rounds 16-31). -/
def md5G (b c d : Nat) : Nat := (d &&& b) ||| ((4294967295 - d) &&& c)

/-- MD5 round function H (rounds 32-47). -/
def md5H (b c d : Nat) : Nat := b ^^^ c ^^^ d

/-- MD5 round function I (rounds 48-63). -/
def md5I (b c d : Nat) : Nat := c ^^^ (b ||| (4294967295 - d))

/-- One MD5 round `i` (0-63) over state `(a, b, c, d)` with message
words `M`. -/
def md5Round (M : List Nat) (st : Nat × Nat × Nat × Nat) (i : Nat) :
    Nat × Nat × Nat × Nat :=
  match st with
  | (a, b, c, d) =>
    let fg : Nat × Nat :=
      if i < 16 then (md5F b c d, i)
      else if i < 32 then (md5G b c d, (5 * i + 1) % 16)
      else if i < 48 then (md5H b c d, (3 * i + 5) % 16)
      else (md5I b c d, (7 * i) % 16)
    let f := (fg.1 + a + md5K.getD i 0 + M.getD fg.2 0) % 2 ^ 32
    (d, (b + rotl32 f (md5S.getD i 0)) % 2 ^ 32, b, c)

/-- `k`-byte little-endian encoding of `v`. -/
def toLEBytes : Nat → Nat → List Nat
  | 0, _ => []
  | k + 1, v => v % 256 :: toLEBytes k (v / 256)

/-- Decode one little-endian 32-bit word from the head of a byte list. -/
def leWord : List Nat → Nat
  | b0 :: b1 :: b2 :: b3 :: _ => b0 + 256 * (b1 + 256 * (b2 + 256 * b3))
  | _ => 0

/-- The sixteen 32-bit message words of one 64-byte chunk. -/
def chunkWords (chunk : List Nat) : List Nat :=
  (List.range 16).map (fun j => leWord (chunk.drop (4 * j)))

/-- Process one 64-byte chunk: 64 rounds, then add the result into the
running state, all modulo `2 ^ 32`. -/
def md5Chunk (chunk : List Nat) (st : Nat × Nat × Nat × Nat) :
    Nat × Nat × Nat × Nat :=
  let M := chunkWords chunk
  match st, (List.range 64).foldl (md5Round M) st with
  | (a0, b0, c0, d0), (a, b, c, d) =>
    ((a0 + a) % 2 ^ 32, (b0 + b) % 2 ^ 32, (c0 + c) % 2 ^ 32, (d0 + d) % 2 ^ 32)

/-- MD5 padding: append `0x80`, zero bytes to reach 56 mod 64, and the
original bit length as a little-endian 64-bit integer. -/
def md5Pad (msg : List Nat) : List Nat :=
  let len := msg.length
  let z := (120 - ((len + 1) % 64)) % 64
  msg ++ 128 :: List.replicate z 0 ++ toLEBytes 8 ((8 * len) % 2 ^ 64)

/-- Fold `md5Chunk` over the first `k` 64-byte chunks of padded data
(the padded data has exactly `length / 64` chunks). -/
def md5ChunksN : Nat → List Nat → Nat × Nat × Nat × Nat → Nat × Nat × Nat × Nat
  | 0, _, st => st
  | k + 1, data, st => md5ChunksN k (data.drop 64) (md5Chunk (data.take 64) st)

/-- The 16-byte MD5 digest of a byte string (the model of
`hashlib.md5(...).digest()`). -/
def md5Bytes (msg : List Nat) : List Nat :=
  match md5ChunksN ((md5Pad msg).length / 64) (md5Pad msg)
      (0x67452301, 0xefcdab89, 0x98badcfe, 0x10325476) with
  | (a, b, c, d) => toLEBytes 4 a ++ toLEBytes 4 b ++ toLEBytes 4 c ++ toLEBytes 4 d

/-- Lower-case hexadecimal digit. -/
def hexDigit (n : Nat) : Char :=
  if n < 10 then Char.ofNat (48 + n) else Char.ofNat (87 + n)

/-- The model of `hashlib.md5(...).hexdigest()`. -/
def md5Hex (msg : List Nat) : List Char :=
  (md5Bytes msg).flatMap (fun b => [hexDigit (b / 16), hexDigit (b % 16)])

/-- UTF-8 bytes of an ASCII string (the `str.encode()` of line 137; the
strings involved — decimal renderings of `time.time()` — are ASCII). -/
def asciiBytes (s : List Char) : List Nat := s.map (fun c => c.toNat)

/-- Lines 134-137 of `copy_image_to_assets`: the destination "hash" is
the first ten hex digits of the MD5 of the file's bytes with the
current `time.time()` rendering concatenated onto them. -/
def fileHash (content : List Nat) (timeStr : List Char) : List Char :=
  (md5Hex (content ++ asciiBytes timeStr)).take 10

/-- Lines 139-141: the destination filename is the "hash" followed by
the extension (original extension lower-cased, or `.png`). -/
def newFilenameFor (content : List Nat) (timeStr ext : List Char) : List Char :=
  fileHash content timeStr ++ ext

/-- Python `str.lower()` restricted to single-character case mappings:
ASCII `A`-`Z` shift down by 32, every other character is unchanged.
(This is exact for all characters whose Unicode lowercase mapping is
itself or a single ASCII letter; the two exotic exceptions
U+0130 and U+212A do not occur in the inputs considered.) -/
def pyLower (c : Char) : Char :=
  if 65 ≤ c.toNat ∧ c.toNat ≤ 90 then Char.ofNat (c.toNat + 32) else c

/-- The character class `[a-zA-Z0-9-]` of the slug substitution on
line 221 (its complement is replaced by a dash). -/
def isCodeSlugChar (c : Char) : Bool :=
  (97 ≤ c.toNat && c.toNat ≤ 122) || (65 ≤ c.toNat && c.toNat ≤ 90)
    || (48 ≤ c.toNat && c.toNat ≤ 57) || c.toNat = 45

/-- The character class `[a-z0-9-]` named by the specification's slug
algorithm ("replace every character outside `[a-z0-9-]`"). -/
def isSpecSlugChar (c : Char) : Bool :=
  (97 ≤ c.toNat && c.toNat ≤ 122) || (48 ≤ c.toNat && c.toNat ≤ 57) || c.toNat = 45

/-- `re.sub(r'-+', '-', slug)` (line 222): collapse each run of dashes
to a single dash. -/
def collapseDashAux : Nat → List Char → List Char
  | 0, l => l
  | _, [] => []
  | fuel + 1, c :: rest =>
    if c = '-' then '-' :: collapseDashAux fuel (rest.dropWhile (fun x => x = '-'))
    else c :: collapseDashAux fuel rest

def collapseDash (l : List Char) : List Char := collapseDashAux l.length l

/-- `.strip('-')` (line 222): drop leading and trailing dashes. -/
def stripDash (l : List Char) : List Char :=
  ((l.dropWhile (fun x => x = '-')).reverse.dropWhile (fun x => x = '-')).reverse

/-- The slug built by `create_markdown_post` (lines 221-222):
lower-case the title, replace every character outside `[a-zA-Z0-9-]`
by `-`, collapse dash runs, strip outer dashes. -/
def slugOf (title : List Char) : List Char :=
  stripDash (collapseDash ((title.map pyLower).map
    (fun c => if isCodeSlugChar c then c else '-')))

/-- The slug algorithm as worded by the specification (for the
refinement comparison of claim C7): lower-case, replace every character
outside `[a-z0-9-]` by `-`, collapse runs, trim. -/
def specSlug (title : List Char) : List Char :=
  stripDash (collapseDash ((title.map pyLower).map
    (fun c => if isSpecSlugChar c then c else '-')))

/-- Decimal digits of `n` (`fuel ≥ n` suffices). -/
def natDigitsAux : Nat → Nat → List Char
  | 0, n => [Char.ofNat (48 + n % 10)]
  | fuel + 1, n =>
    if n < 10 then [Char.ofNat (48 + n)]
    else natDigitsAux fuel (n / 10) ++ [Char.ofNat (48 + n % 10)]

def natDigits (n : Nat) : List Char := natDigitsAux n n

/-- Zero-pad a digit string on the left to width `k` (`strftime`
zero-padding). -/
def padZero (k : Nat) (ds : List Char) : List Char :=
  List.replicate (k - ds.length) '0' ++ ds

/-- `strftime('%Y-%m-%d')` (line 224). -/
def fmtDate (t : DateTime) : List Char :=
  padZero 4 (natDigits t.year) ++ '-' :: padZero 2 (natDigits t.month)
    ++ '-' :: padZero 2 (natDigits t.day)

/-- `strftime('%Y-%m-%d %H:%M:%S')` (line 231). -/
def fmtDateTime (t : DateTime) : List Char :=
  fmtDate t ++ ' ' :: padZero 2 (natDigits t.hour)
    ++ ':' :: padZero 2 (natDigits t.minute)
    ++ ':' :: padZero 2 (natDigits t.second)

/-- Line 225: `filename = f"{date_str}-{slug}.md"`. -/
def filenameFor (title : List Char) (date : DateTime) : List Char :=
  fmtDate date ++ '-' :: (slugOf title ++ strL ".md")

/-- The filename of the post written for a note (`create_markdown_post`,
lines 220-225): built from the note's title and `modified_date`. -/
def filenameOf (n : Note) : List Char :=
  filenameFor n.title n.modifiedDate

/-- The Jekyll front-matter document of lines 228-236: front matter
fields, a blank line, the processed body, and a trailing newline. -/
def frontMatterOf (n : Note) (pc : List Char × List (List Char)) : List Char :=
  strL "---\nlayout: post\ntitle: \"" ++ n.title
    ++ strL "\"\ndate: " ++ fmtDateTime n.modifiedDate
    ++ strL "\ntags: [" ++ joinSep (strL ", ") pc.2
    ++ strL "]\n---\n\n" ++ pc.1 ++ [Char.ofNat 10]

/-- `create_markdown_post` (lines 213-243) minus the filesystem write:
transform the content, build the filename and the document text. -/
def createMarkdownPost (mat : List Char → Option (List Char)) (n : Note) :
    List Char × List Char :=
  (filenameOf n, frontMatterOf n (processContent n.content mat n.images))

/-- The per-note loop of `publish_notes` (lines 260-268).  The
filesystem is the oracle `ok : filename → Bool`: `ok fn = false` means
`open(file_path, 'w')`/`write` raises `OSError` for that path.  The
result is the list of `(filename, document)` pairs actually written,
paired with `true` when the loop ran to completion and `false` when an
unhandled write exception escaped `publish_notes` (the loop body has no
`try`/`except`, so the first failing write aborts the remaining
iterations). -/
def publishNotes (ok : List Char → Bool)
    (mat : List Char → Option (List Char)) :
    List Note → List (List Char × List Char) × Bool
  | [] => ([], true)
  | n :: rest =>
    if n.title.isEmpty || n.content.isEmpty then publishNotes ok mat rest
    else
      let post := createMarkdownPost mat n
      if ok post.1 then
        let r := publishNotes ok mat rest
        (post :: r.1, r.2)
      else ([], false)

theorem toNat_ofNat_valid (n : Nat) (h : n < 55296) : (Char.ofNat n).toNat = n := by
  have hv : n.isValidChar := Or.inl h
  rw [Char.ofNat, dif_pos hv]
  rfl

theorem takeWhile_append_stop {α : Type} (p : α → Bool) (w : List α)
    (hw : ∀ x ∈ w, p x = true) (y : α) (hy : p y = false) (r : List α) :
    (w ++ y :: r).takeWhile p = w := by
  induction w with
  | nil => simp [List.takeWhile_cons, hy]
  | cons a w' ih =>
    have ha : p a = true := hw a (by simp)
    simp only [List.cons_append, List.takeWhile_cons, ha, if_true]
    rw [ih (fun x hx => hw x (by simp [hx]))]

theorem dropWhile_append_stop {α : Type} (p : α → Bool) (w : List α)
    (hw : ∀ x ∈ w, p x = true) (y : α) (hy : p y = false) (r : List α) :
    (w ++ y :: r).dropWhile p = y :: r := by
  induction w with
  | nil => simp [List.dropWhile_cons, hy]
  | cons a w' ih =>
    have ha : p a = true := hw a (by simp)
    simp only [List.cons_append, List.dropWhile_cons, ha, if_true]
    exact ih (fun x hx => hw x (by simp [hx]))

theorem takeWhile_all {α : Type} (p : α → Bool) (w : List α)
    (hw : ∀ x ∈ w, p x = true) : w.takeWhile p = w := by
  induction w with
  | nil => rfl
  | cons a w' ih =>
    simp only [List.takeWhile_cons, hw a (by simp), if_true]
    rw [ih (fun x hx => hw x (by simp [hx]))]

theorem dropWhile_all {α : Type} (p : α → Bool) (w : List α)
    (hw : ∀ x ∈ w, p x = true) : w.dropWhile p = [] := by
  induction w with
  | nil => rfl
  | cons a w' ih =>
    simp only [List.dropWhile_cons, hw a (by simp), if_true]
    exact ih (fun x hx => hw x (by simp [hx]))

/-- C1.  Image materialization is NOT content-addressed in the code:
`copy_image_to_assets` (line 137) feeds `str(time.time())` into the MD5
that names the destination file, so the very same byte content `"abc"`
materialized at wall-clock readings `1000.0` and `2000.0` is given two
different destination filenames (and line 147 then performs a second
physical copy; there is no destination-existence check anywhere in the
function).  This contradicts the specification's explicit instruction
not to mix the current time into the hash, so the code, not the claim,
is wrong. -/
theorem c1_filename_depends_on_time :
    newFilenameFor (asciiBytes (strL "abc")) (strL "1000.0") (strL ".png") ≠
      newFilenameFor (asciiBytes (strL "abc")) (strL "2000.0") (strL ".png") := by
  decide

/-- C2 counterexample.  For the body `"#todo buy milk"` the hashtag
token sits at string start, the pattern `\s#(\w+)(?=\s|$)` of line 183
requires a preceding whitespace character, and so the leading `#` is
NOT removed: the transformed body is the input unchanged (it still
begins with `#`), refuting "removes the leading # from every token that
is preceded by whitespace or string start".  (The extracted tags are
`["todo"]`, and the unchanged body does still contain the substring
`"todo buy milk"` — those parts of the claim hold.) -/
theorem c2_counterexample_leading_hash_kept :
    (processContent (strL "#todo buy milk") (fun _ => none) []).1
        = strL "#todo buy milk" ∧
      (processContent (strL "#todo buy milk") (fun _ => none) []).1.headD ' ' = '#' ∧
      (processContent (strL "#todo buy milk") (fun _ => none) []).2 = [strL "todo"] := by
  refine ⟨by decide, by decide, by decide⟩

theorem stripTagsAux_congr :
    ∀ (f1 : Nat) (l : List Char) (f2 : Nat), l.length ≤ f1 → l.length ≤ f2 →
      stripTagsAux f1 l = stripTagsAux f2 l := by
  intro f1
  induction f1 with
  | zero =>
    intro l f2 h1 _
    have hl : l = [] := List.eq_nil_of_length_eq_zero (Nat.le_zero.mp h1)
    subst hl
    cases f2 <;> rfl
  | succ f ih =>
    intro l f2 h1 h2
    cases l with
    | nil => cases f2 <;> rfl
    | cons c t =>
      cases t with
      | nil =>
        cases f2 with
        | zero => simp at h2
        | succ f2' => rfl
      | cons d rest =>
        cases f2 with
        | zero => simp at h2
        | succ f2' =>
          simp only [List.length_cons] at h1 h2
          simp only [stripTagsAux]
          have hr : (rest.dropWhile isWordChar).length ≤ rest.length :=
            length_dropWhile_le _ _
          by_cases hcd : (isPySpace c && d = '#') = true
          · simp only [hcd, if_true]
            by_cases hmatch :
                (!(rest.takeWhile isWordChar).isEmpty
                  && ((rest.dropWhile isWordChar).isEmpty
                      || isPySpace ((rest.dropWhile isWordChar).headD ' '))) = true
            · simp only [hmatch, if_true]
              rw [ih (rest.dropWhile isWordChar) f2' (by omega) (by omega)]
            · simp only [Bool.not_eq_true] at hmatch
              simp only [hmatch, Bool.false_eq_true, if_false]
              rw [ih (d :: rest) f2' (by simp; omega) (by simp; omega)]
          · simp only [Bool.not_eq_true] at hcd
            simp only [hcd, Bool.false_eq_true, if_false]
            rw [ih (d :: rest) f2' (by simp; omega) (by simp; omega)]

theorem stripTags_nil : stripTags [] = [] := rfl

theorem stripTags_single (c : Char) : stripTags [c] = [c] := rfl

theorem stripTags_cons2 (c d : Char) (rest : List Char) :
    stripTags (c :: d :: rest) =
      if isPySpace c && d = '#' then
        if !(rest.takeWhile isWordChar).isEmpty
            && ((rest.dropWhile isWordChar).isEmpty
                || isPySpace ((rest.dropWhile isWordChar).headD ' ')) then
          ' ' :: (rest.takeWhile isWordChar ++ stripTags (rest.dropWhile isWordChar))
        else c :: stripTags (d :: rest)
      else c :: stripTags (d :: rest) := by
  show stripTagsAux (rest.length + 1 + 1) (c :: d :: rest) = _
  simp only [stripTagsAux]
  have hr : (rest.dropWhile isWordChar).length ≤ rest.length :=
    length_dropWhile_le _ _
  by_cases hcd : (isPySpace c && d = '#') = true
  · simp only [hcd, if_true]
    by_cases hmatch :
        (!(rest.takeWhile isWordChar).isEmpty
          && ((rest.dropWhile isWordChar).isEmpty
              || isPySpace ((rest.dropWhile isWordChar).headD ' '))) = true
    · simp only [hmatch, if_true]
      rw [stripTagsAux_congr (rest.length + 1) (rest.dropWhile isWordChar)
          (rest.dropWhile isWordChar).length (by omega) le_rfl]
      rfl
    · simp only [Bool.not_eq_true] at hmatch
      simp only [hmatch, Bool.false_eq_true, if_false]
      rw [stripTagsAux_congr (rest.length + 1) (d :: rest) (d :: rest).length
          (by simp) le_rfl]
      rfl
  · simp only [Bool.not_eq_true] at hcd
    simp only [hcd, Bool.false_eq_true, if_false]
    rw [stripTagsAux_congr (rest.length + 1) (d :: rest) (d :: rest).length
        (by simp) le_rfl]
    rfl

theorem findTagsAux_congr :
    ∀ (f1 : Nat) (l : List Char) (f2 : Nat), l.length ≤ f1 → l.length ≤ f2 →
      findTagsAux f1 l = findTagsAux f2 l := by
  intro f1
  induction f1 with
  | zero =>
    intro l f2 h1 _
    have hl : l = [] := List.eq_nil_of_length_eq_zero (Nat.le_zero.mp h1)
    subst hl
    cases f2 <;> rfl
  | succ f ih =>
    intro l f2 h1 h2
    cases l with
    | nil => cases f2 <;> rfl
    | cons c rest =>
      cases f2 with
      | zero => simp at h2
      | succ f2' =>
        simp only [List.length_cons] at h1 h2
        simp only [findTagsAux]
        have hr : (rest.dropWhile isWordChar).length ≤ rest.length :=
          length_dropWhile_le _ _
        by_cases hc : c = '#'
        · simp only [if_pos hc]
          by_cases hrun : (rest.takeWhile isWordChar).isEmpty = true
          · simp only [hrun, if_true]
            rw [ih rest f2' (by omega) (by omega)]
          · simp only [Bool.not_eq_true] at hrun
            simp only [hrun, Bool.false_eq_true, if_false]
            rw [ih (rest.dropWhile isWordChar) f2' (by omega) (by omega)]
        · simp only [if_neg hc]
          rw [ih rest f2' (by omega) (by omega)]

theorem findTags_nil : findTags [] = [] := rfl

theorem findTags_cons (c : Char) (rest : List Char) :
    findTags (c :: rest) =
      if c = '#' then
        if (rest.takeWhile isWordChar).isEmpty then findTags rest
        else rest.takeWhile isWordChar :: findTags (rest.dropWhile isWordChar)
      else findTags rest := by
  show findTagsAux (rest.length + 1) (c :: rest) = _
  simp only [findTagsAux]
  have hr : (rest.dropWhile isWordChar).length ≤ rest.length :=
    length_dropWhile_le _ _
  by_cases hc : c = '#'
  · simp only [if_pos hc]
    by_cases hrun : (rest.takeWhile isWordChar).isEmpty = true
    · simp only [hrun, if_true]
      rfl
    · simp only [Bool.not_eq_true] at hrun
      simp only [hrun, Bool.false_eq_true, if_false]
      rw [findTagsAux_congr rest.length (rest.dropWhile isWordChar)
          (rest.dropWhile isWordChar).length (by omega) le_rfl]
      rfl
  · simp only [if_neg hc]
    rfl

theorem italicSubAux_congr :
    ∀ (f1 : Nat) (l : List Char) (f2 : Nat), l.length ≤ f1 → l.length ≤ f2 →
      italicSubAux f1 l = italicSubAux f2 l := by
  intro f1
  induction f1 with
  | zero =>
    intro l f2 h1 _
    have hl : l = [] := List.eq_nil_of_length_eq_zero (Nat.le_zero.mp h1)
    subst hl
    cases f2 <;> rfl
  | succ f ih =>
    intro l f2 h1 h2
    cases l with
    | nil => cases f2 <;> rfl
    | cons c rest =>
      cases f2 with
      | zero => simp at h2
      | succ f2' =>
        simp only [List.length_cons] at h1 h2
        simp only [italicSubAux]
        by_cases hc : c = '_'
        · simp only [if_pos hc]
          cases hfc : findClose '_' rest with
          | none => rw [ih rest f2' (by omega) (by omega)]
          | some p =>
            obtain ⟨g, r⟩ := p
            have hre := findClose_eq_append '_' rest g r hfc
            have hlen : rest.length = g.length + r.length + 1 := by
              rw [hre]; simp only [List.length_append, List.length_cons]; omega
            dsimp only
            rw [ih r f2' (by omega) (by omega)]
        · simp only [if_neg hc]
          rw [ih rest f2' (by omega) (by omega)]

theorem italicSub_nil : italicSub [] = [] := rfl

theorem italicSub_cons (c : Char) (rest : List Char) :
    italicSub (c :: rest) =
      if c = '_' then
        match findClose '_' rest with
        | some (g, r) => '*' :: (g ++ '*' :: italicSub r)
        | none => c :: italicSub rest
      else c :: italicSub rest := by
  show italicSubAux (rest.length + 1) (c :: rest) = _
  simp only [italicSubAux]
  by_cases hc : c = '_'
  · simp only [if_pos hc]
    cases hfc : findClose '_' rest with
    | none => rfl
    | some p =>
      obtain ⟨g, r⟩ := p
      have hre := findClose_eq_append '_' rest g r hfc
      have hlen : rest.length = g.length + r.length + 1 := by
        rw [hre]; simp only [List.length_append, List.length_cons]; omega
      dsimp only
      rw [italicSubAux_congr rest.length r r.length (by omega) le_rfl]
      rfl
  · simp only [if_neg hc]
    rfl

theorem boldSubAux_congr :
    ∀ (f1 : Nat) (l : List Char) (f2 : Nat), l.length ≤ f1 → l.length ≤ f2 →
      boldSubAux f1 l = boldSubAux f2 l := by
  intro f1
  induction f1 with
  | zero =>
    intro l f2 h1 _
    have hl : l = [] := List.eq_nil_of_length_eq_zero (Nat.le_zero.mp h1)
    subst hl
    cases f2 <;> rfl
  | succ f ih =>
    intro l f2 h1 h2
    cases l with
    | nil => cases f2 <;> rfl
    | cons c rest =>
      cases f2 with
      | zero => simp at h2
      | succ f2' =>
        simp only [List.length_cons] at h1 h2
        simp only [boldSubAux]
        by_cases hc : c = '*'
        · simp only [if_pos hc]
          cases hfc : findClose '*' rest with
          | none => rw [ih rest f2' (by omega) (by omega)]
          | some p =>
            obtain ⟨g, r⟩ := p
            have hre := findClose_eq_append '*' rest g r hfc
            have hlen : rest.length = g.length + r.length + 1 := by
              rw [hre]; simp only [List.length_append, List.length_cons]; omega
            dsimp only
            rw [ih r f2' (by omega) (by omega)]
        · simp only [if_neg hc]
          rw [ih rest f2' (by omega) (by omega)]

theorem boldSub_nil : boldSub [] = [] := rfl

theorem boldSub_cons (c : Char) (rest : List Char) :
    boldSub (c :: rest) =
      if c = '*' then
        match findClose '*' rest with
        | some (g, r) => '*' :: '*' :: (g ++ '*' :: '*' :: boldSub r)
        | none => c :: boldSub rest
      else c :: boldSub rest := by
  show boldSubAux (rest.length + 1) (c :: rest) = _
  simp only [boldSubAux]
  by_cases hc : c = '*'
  · simp only [if_pos hc]
    cases hfc : findClose '*' rest with
    | none => rfl
    | some p =>
      obtain ⟨g, r⟩ := p
      have hre := findClose_eq_append '*' rest g r hfc
      have hlen : rest.length = g.length + r.length + 1 := by
        rw [hre]; simp only [List.length_append, List.length_cons]; omega
      dsimp only
      rw [boldSubAux_congr rest.length r r.length (by omega) le_rfl]
      rfl
  · simp only [if_neg hc]
    rfl

/-- C3 counterexample.  Two valid notes; the filesystem oracle fails
exactly on the first note's destination `2025-01-01-a.md`.  The
publish loop of lines 260-268 has no `try`/`except`, so the whole run
aborts with nothing written — the second note is NOT processed — even
though the very same second note is written successfully when the
failing first note is absent. -/
theorem c3_counterexample_write_failure_aborts :
    publishNotes (fun fn => decide (fn ≠ strL "2025-01-01-a.md")) (fun _ => none)
        [⟨strL "a", strL "x", [], ⟨2025, 1, 1, 0, 0, 0⟩⟩,
         ⟨strL "b", strL "y", [], ⟨2025, 1, 1, 0, 0, 0⟩⟩] = ([], false) ∧
      (publishNotes (fun fn => decide (fn ≠ strL "2025-01-01-a.md")) (fun _ => none)
          [⟨strL "b", strL "y", [], ⟨2025, 1, 1, 0, 0, 0⟩⟩]).1.map Prod.fst
        = [strL "2025-01-01-b.md"] ∧
      (publishNotes (fun fn => decide (fn ≠ strL "2025-01-01-a.md")) (fun _ => none)
          [⟨strL "b", strL "y", [], ⟨2025, 1, 1, 0, 0, 0⟩⟩]).2 = true := by
  refine ⟨by decide, by decide, by decide⟩

/-- C4 counterexample.  For the body `"#a #a"` the transformer returns
the tag list `["a", "a"]` — `re.findall` (line 180) keeps duplicates,
so the extracted tag `"a"` is listed twice, not "exactly once". -/
theorem c4_counterexample_duplicate_tags :
    (processContent (strL "#a #a") (fun _ => none) []).2 = [strL "a", strL "a"] ∧
      ¬ ((processContent (strL "#a #a") (fun _ => none) []).2).Nodup := by
  refine ⟨by decide, by decide⟩

/-- C5 counterexample.  A blob with one well-formed fragment and one
fragment missing both the `content:` and `images:` markers.  The
malformed fragment does NOT yield a record with empty fields: because
`str.find` returns `-1` and Python slicing interprets `-1` from the
end, the record gets title `"Hello worl"` (last character cut off),
content `"orl"`, and images `["world"]` — all non-empty garbage.
(The well-formed fragment still parses correctly, and the batch is not
aborted, so those parts of the claim hold.) -/
theorem c5_counterexample_missing_markers_garbage :
    parseNotes (strL "title:A content:B images: title:Hello world")
        ⟨2025, 1, 2, 3, 4, 5⟩ =
      [⟨strL "A", strL "B", [], ⟨2025, 1, 2, 3, 4, 5⟩⟩,
       ⟨strL "Hello worl", strL "orl", [strL "world"], ⟨2025, 1, 2, 3, 4, 5⟩⟩] ∧
      (strL "orl" ≠ ([] : List Char) ∧ [strL "world"] ≠ ([] : List (List Char))) := by
  refine ⟨by decide, by decide, by decide⟩

theorem space_not_word (c : Char) (h : isPySpace c = true) : isWordChar c = false := by
  simp only [isPySpace, Bool.or_eq_true, decide_eq_true_eq] at h
  rcases h with ((((h | h) | h) | h) | h) | h <;> subst h <;> decide

/-- C2 (amended).  Tag stripping as implemented on line 183: a hashtag
token PRECEDED BY A WHITESPACE CHARACTER and followed by whitespace has
its `#` removed and the preceding whitespace replaced by a single
space, while the bare word is kept; a hashtag token at string start
(no preceding whitespace character) is untouched — see the
counterexample. -/
theorem c2_strip_whitespace_preceded_tag (c d : Char) (w rest : List Char)
    (hc : isPySpace c = true) (hw : w ≠ [])
    (hall : ∀ x ∈ w, isWordChar x = true) (hd : isPySpace d = true) :
    stripTags (c :: '#' :: (w ++ d :: rest)) = ' ' :: (w ++ stripTags (d :: rest)) := by
  rw [stripTags_cons2]
  have hdw : isWordChar d = false := space_not_word d hd
  rw [takeWhile_append_stop _ w hall d hdw rest,
    dropWhile_append_stop _ w hall d hdw rest]
  have h1 : (isPySpace c && ('#' : Char) = '#') = true := by simp [hc]
  have h2 : (!w.isEmpty && ((d :: rest).isEmpty || isPySpace ((d :: rest).headD ' '))) = true := by
    simp [List.isEmpty_eq_true, hw, hd]
  rw [if_pos h1, if_pos h2]

theorem c2_strip_witness :
    stripTags ('\t' :: '#' :: (strL "todo" ++ ' ' :: strL "now")) = strL " todo now" := by
  rw [c2_strip_whitespace_preceded_tag '\t' ' ' (strL "todo") (strL "now")
    (by decide) (by decide) (by decide) (by decide)]
  decide

/-- C10.  When the whitespace character preceding a hashtag is a
newline, the substitution of line 183 (`r' \1'`) replaces that newline
by a literal space: a body ending in a line that starts with a hashtag
has that line joined onto the previous text. -/
theorem c10_newline_before_tag_replaced (pre w : List Char)
    (hpre : '#' ∉ pre) (hw : w ≠ []) (hall : ∀ x ∈ w, isWordChar x = true) :
    stripTags (pre ++ '\n' :: '#' :: w) = pre ++ ' ' :: w := by
  induction pre with
  | nil =>
    simp only [List.nil_append]
    rw [stripTags_cons2, takeWhile_all isWordChar w hall,
      dropWhile_all isWordChar w hall]
    have h1 : (isPySpace '\n' && ('#' : Char) = '#') = true := by decide
    have h2 : (!w.isEmpty && (([] : List Char).isEmpty
        || isPySpace (([] : List Char).headD ' '))) = true := by
      simp [List.isEmpty_eq_true, hw]
    rw [if_pos h1, if_pos h2, stripTags_nil]
    simp
  | cons p pre' ih =>
    have hp : p ≠ '#' := fun h => hpre (by simp [h])
    have hpre' : '#' ∉ pre' := fun h => hpre (by simp [h])
    cases pre' with
    | nil =>
      simp only [List.nil_append, List.cons_append] at ih ⊢
      rw [show p :: '\n' :: '#' :: w = p :: '\n' :: ('#' :: w) from rfl,
        stripTags_cons2]
      have h1 : (isPySpace p && ('\n' : Char) = '#') = false := by simp
      rw [if_neg (by simp [h1])]
      rw [ih hpre']
    | cons q pre'' =>
      have hq : q ≠ '#' := fun h => hpre (by simp [h])
      simp only [List.cons_append] at ih ⊢
      rw [stripTags_cons2]
      rw [if_neg (by simp [hq])]
      rw [ih hpre']

theorem c10_witness :
    stripTags (strL "line one\n#tag") = strL "line one tag" := by
  rw [show strL "line one\n#tag" = strL "line one" ++ '\n' :: '#' :: strL "tag" by decide]
  rw [c10_newline_before_tag_replaced (strL "line one") (strL "tag")
    (by decide) (by decide) (by decide)]
  decide

theorem findTags_skip (c : Char) (rest : List Char) (hc : c ≠ '#') :
    findTags (c :: rest) = findTags rest := by
  rw [findTags_cons, if_neg hc]

theorem findTags_hash_end (w : List Char) (hw : w ≠ [])
    (hall : ∀ x ∈ w, isWordChar x = true) :
    findTags ('#' :: w) = [w] := by
  rw [findTags_cons, if_pos rfl, takeWhile_all isWordChar w hall,
    dropWhile_all isWordChar w hall]
  rw [if_neg (by simp [List.isEmpty_eq_true, hw])]
  rfl

theorem findTags_hash_stop (w : List Char) (y : Char) (r : List Char)
    (hw : w ≠ []) (hall : ∀ x ∈ w, isWordChar x = true)
    (hy : isWordChar y = false) :
    findTags ('#' :: (w ++ y :: r)) = w :: findTags (y :: r) := by
  rw [findTags_cons, if_pos rfl, takeWhile_append_stop _ w hall y hy r,
    dropWhile_append_stop _ w hall y hy r]
  rw [if_neg (by simp [List.isEmpty_eq_true, hw])]

/-- C4 (amended).  The transformer's tag collection is
`re.findall(r'#(\w+)', content)` (line 180): it lists one entry per
OCCURRENCE in order of appearance, and duplicates are NOT removed — a
word tagged twice appears twice. -/
theorem c4_tags_keep_duplicates (w : List Char)
    (mat : List Char → Option (List Char)) (imgs : List (List Char))
    (hw : w ≠ []) (hall : ∀ x ∈ w, isWordChar x = true) :
    (processContent ('#' :: (w ++ ' ' :: '#' :: w)) mat imgs).2 = [w, w] := by
  have h2 : (processContent ('#' :: (w ++ ' ' :: '#' :: w)) mat imgs).2
      = findTags ('#' :: (w ++ ' ' :: '#' :: w)) := rfl
  rw [h2, findTags_hash_stop w ' ' ('#' :: w) hw hall (by decide),
    findTags_skip ' ' ('#' :: w) (by decide), findTags_hash_end w hw hall]

theorem c4_tags_witness :
    (processContent ('#' :: (strL "a" ++ ' ' :: '#' :: strL "a"))
        (fun _ => none) []).2 = [strL "a", strL "a"] :=
  c4_tags_keep_duplicates (strL "a") (fun _ => none) [] (by decide) (by decide)

theorem findClose_cons2 (d c e : Char) (rest : List Char) :
    findClose d (c :: e :: rest) =
      if c = '\n' then none
      else if e = d then some ([c], rest)
      else (findClose d (e :: rest)).map (fun p => (c :: p.1, p.2)) := rfl

theorem findClose_exact (d : Char) :
    ∀ (w : List Char), w ≠ [] → d ∉ w → '\n' ∉ w →
      ∀ (r : List Char), findClose d (w ++ d :: r) = some (w, r) := by
  intro w
  induction w with
  | nil => intro h; exact absurd rfl h
  | cons a w' ih =>
    intro _ hd hn r
    have ha : a ≠ '\n' := fun h => hn (by simp [h])
    cases w' with
    | nil =>
      show findClose d (a :: d :: r) = some ([a], r)
      rw [findClose_cons2, if_neg ha, if_pos rfl]
    | cons b w'' =>
      have hb : b ≠ d := fun h => hd (by simp [h])
      have hrec := ih (by simp) (fun h => hd (by simp [h]))
        (fun h => hn (by simp [h])) r
      simp only [List.cons_append] at hrec ⊢
      rw [findClose_cons2, if_neg ha, if_neg hb, hrec]
      rfl

theorem italicSub_id (l : List Char) (h : '_' ∉ l) : italicSub l = l := by
  induction l with
  | nil => rfl
  | cons c rest ih =>
    have hc : c ≠ '_' := fun hh => h (by simp [hh])
    rw [italicSub_cons, if_neg hc, ih (fun hh => h (by simp [hh]))]

theorem boldSub_id (l : List Char) (h : '*' ∉ l) : boldSub l = l := by
  induction l with
  | nil => rfl
  | cons c rest ih =>
    have hc : c ≠ '*' := fun hh => h (by simp [hh])
    rw [boldSub_cons, if_neg hc, ih (fun hh => h (by simp [hh]))]

theorem italicSub_match (pre x post : List Char)
    (hpre : '_' ∉ pre) (hx : x ≠ []) (hxu : '_' ∉ x) (hxn : '\n' ∉ x)
    (hpost : '_' ∉ post) :
    italicSub (pre ++ '_' :: (x ++ '_' :: post)) = pre ++ '*' :: (x ++ '*' :: post) := by
  induction pre with
  | nil =>
    simp only [List.nil_append]
    rw [italicSub_cons, if_pos rfl,
      findClose_exact '_' x hx hxu hxn post]
    dsimp only
    rw [italicSub_id post hpost]
  | cons p pre' ih =>
    have hp : p ≠ '_' := fun h => hpre (by simp [h])
    simp only [List.cons_append]
    rw [italicSub_cons, if_neg hp, ih (fun h => hpre (by simp [h]))]

theorem boldSub_match (pre x post : List Char)
    (hpre : '*' ∉ pre) (hx : x ≠ []) (hxu : '*' ∉ x) (hxn : '\n' ∉ x)
    (hpost : '*' ∉ post) :
    boldSub (pre ++ '*' :: (x ++ '*' :: post))
      = pre ++ '*' :: '*' :: (x ++ '*' :: '*' :: post) := by
  induction pre with
  | nil =>
    simp only [List.nil_append]
    rw [boldSub_cons, if_pos rfl,
      findClose_exact '*' x hx hxu hxn post]
    dsimp only
    rw [boldSub_id post hpost]
  | cons p pre' ih =>
    have hp : p ≠ '*' := fun h => hpre (by simp [h])
    simp only [List.cons_append]
    rw [boldSub_cons, if_neg hp, ih (fun h => hpre (by simp [h]))]

/-- C6.  The bold rule of line 198 runs on the OUTPUT of the italic
rule of line 197: an underscore-wrapped span (free of delimiter and
newline characters, in a context free of `_` and `*`) first becomes
`*x*` and is then immediately re-wrapped by the second substitution
into `**x**` — every italicized span ends up bold. -/
theorem c6_italic_rewrapped_bold (pre x post : List Char) (hx : x ≠ [])
    (hpreU : '_' ∉ pre) (hpreS : '*' ∉ pre)
    (hxU : '_' ∉ x) (hxS : '*' ∉ x) (hxN : '\n' ∉ x)
    (hpostU : '_' ∉ post) (hpostS : '*' ∉ post) :
    boldSub (italicSub (pre ++ '_' :: (x ++ '_' :: post)))
      = pre ++ '*' :: '*' :: (x ++ '*' :: '*' :: post) := by
  rw [italicSub_match pre x post hpreU hx hxU hxN hpostU]
  exact boldSub_match pre x post hpreS hx hxS hxN hpostS

theorem c6_witness :
    boldSub (italicSub (strL "a " ++ '_' :: (strL "x" ++ '_' :: strL " b")))
      = strL "a **x** b" := by
  rw [c6_italic_rewrapped_bold (strL "a ") (strL "x") (strL " b") (by decide)
    (by decide) (by decide) (by decide) (by decide) (by decide) (by decide) (by decide)]
  decide

theorem pyLower_not_upper (c : Char) :
    ¬ (65 ≤ (pyLower c).toNat ∧ (pyLower c).toNat ≤ 90) := by
  unfold pyLower
  by_cases h : 65 ≤ c.toNat ∧ c.toNat ≤ 90
  · rw [if_pos h]
    rw [toNat_ofNat_valid (c.toNat + 32) (by omega)]
    omega
  · rw [if_neg h]
    omega

theorem slugChar_agree (c : Char) :
    (if isCodeSlugChar (pyLower c) then pyLower c else '-')
      = (if isSpecSlugChar (pyLower c) then pyLower c else '-') := by
  have hup := pyLower_not_upper c
  by_cases hs : isSpecSlugChar (pyLower c) = true
  · have hc : isCodeSlugChar (pyLower c) = true := by
      simp only [isSpecSlugChar, Bool.or_eq_true, Bool.and_eq_true,
        decide_eq_true_eq] at hs
      simp only [isCodeSlugChar, Bool.or_eq_true, Bool.and_eq_true,
        decide_eq_true_eq]
      omega
    rw [if_pos hc, if_pos hs]
  · have hc : ¬ isCodeSlugChar (pyLower c) = true := by
      simp only [isSpecSlugChar, Bool.or_eq_true, Bool.and_eq_true,
        decide_eq_true_eq] at hs
      simp only [isCodeSlugChar, Bool.or_eq_true, Bool.and_eq_true,
        decide_eq_true_eq]
      omega
    rw [if_neg hc, if_neg hs]

/-- C7.  The filename built by `create_markdown_post` (lines 220-225)
is a pure function of title and date, and the slug it computes agrees
with the specification's slug algorithm for every title: lower-casing
first makes the code's keep-class `[a-zA-Z0-9-]` coincide with the
spec's `[a-z0-9-]` (no upper-case letter survives `lower()`), every
other character — non-ASCII letters included — collapses to `-`, runs
collapse, outer dashes are trimmed, and the filename is
`YYYY-MM-DD-slug.md`. -/
theorem c7_filename_slug_spec (title : List Char) (d : DateTime) :
    filenameFor title d = fmtDate d ++ '-' :: (specSlug title ++ strL ".md")
      ∧ slugOf title = specSlug title := by
  have hslug : slugOf title = specSlug title := by
    unfold slugOf specSlug
    have hmap : (title.map pyLower).map (fun c => if isCodeSlugChar c then c else '-')
        = (title.map pyLower).map (fun c => if isSpecSlugChar c then c else '-') := by
      rw [List.map_map, List.map_map]
      exact List.map_congr_left (fun c _ => slugChar_agree c)
    rw [hmap]
  exact ⟨by unfold filenameFor; rw [hslug], hslug⟩

/-- C8.  The guard on lines 261-263 (`continue` on falsy title or
content) filters a record with empty title or empty body out of the
publish loop before any transformation or write: deleting such a
record from the input changes nothing. -/
theorem c8_empty_records_filtered (ok : List Char → Bool)
    (mat : List Char → Option (List Char)) (pre post : List Note) (n : Note)
    (h : n.title.isEmpty = true ∨ n.content.isEmpty = true) :
    publishNotes ok mat (pre ++ n :: post) = publishNotes ok mat (pre ++ post) := by
  induction pre with
  | nil =>
    simp only [List.nil_append]
    show publishNotes ok mat (n :: post) = _
    have hcond : (n.title.isEmpty || n.content.isEmpty) = true := by
      rcases h with h | h <;> simp [h]
    simp only [publishNotes, hcond, if_true]
  | cons m pre' ih =>
    simp only [List.cons_append, publishNotes, List.append_eq]
    rw [ih]

theorem c8_witness :
    publishNotes (fun _ => true) (fun _ => none)
        [⟨strL "t", strL "c", [], ⟨2025, 1, 1, 0, 0, 0⟩⟩,
         ⟨strL "", strL "body", [], ⟨2025, 1, 1, 0, 0, 0⟩⟩]
      = publishNotes (fun _ => true) (fun _ => none)
        [⟨strL "t", strL "c", [], ⟨2025, 1, 1, 0, 0, 0⟩⟩] := by
  have h := c8_empty_records_filtered (fun _ => true) (fun _ => none)
    [⟨strL "t", strL "c", [], ⟨2025, 1, 1, 0, 0, 0⟩⟩] []
    ⟨strL "", strL "body", [], ⟨2025, 1, 1, 0, 0, 0⟩⟩ (Or.inl (by decide))
  simpa using h

/-- C9.  Every record built by the parsing loop is stamped with
`datetime.now()` (line 100) — the run's wall-clock time `now` — not
with anything read from the export text; consequently the post
filename built from the record starts with the run's date. -/
theorem c9_modified_date_is_run_time (blob : List Char) (now : DateTime)
    (n : Note) (h : n ∈ parseNotes blob now) :
    n.modifiedDate = now
      ∧ filenameOf n = fmtDate now ++ '-' :: (slugOf n.title ++ strL ".md") := by
  unfold parseNotes at h
  obtain ⟨frag, _, rfl⟩ := List.mem_map.mp h
  exact ⟨rfl, rfl⟩

theorem c9_witness :
    (⟨strL "A", strL "B", [], ⟨2025, 1, 2, 3, 4, 5⟩⟩ : Note).modifiedDate
        = ⟨2025, 1, 2, 3, 4, 5⟩
      ∧ filenameOf ⟨strL "A", strL "B", [], ⟨2025, 1, 2, 3, 4, 5⟩⟩
        = fmtDate ⟨2025, 1, 2, 3, 4, 5⟩
          ++ '-' :: (slugOf (strL "A") ++ strL ".md") :=
  c9_modified_date_is_run_time (strL "title:A content:B images:")
    ⟨2025, 1, 2, 3, 4, 5⟩ _ (by decide)

/-- C3 (amended).  A filesystem write failure for one record ABORTS
the remaining records: `create_markdown_post`'s `open`/`write`
(lines 238-240) is called from the loop of lines 260-268 with no
exception handling, so when the write oracle fails on a (non-filtered)
record, the loop stops, nothing more is processed, and the exception
escapes `publish_notes`. -/
theorem c3_write_failure_stops_processing (ok : List Char → Bool)
    (mat : List Char → Option (List Char)) (n : Note) (rest : List Note)
    (h1 : n.title.isEmpty = false) (h2 : n.content.isEmpty = false)
    (h3 : ok (filenameOf n) = false) :
    publishNotes ok mat (n :: rest) = ([], false) := by
  have hcond : (n.title.isEmpty || n.content.isEmpty) = false := by
    simp [h1, h2]
  simp only [publishNotes, hcond, Bool.false_eq_true, if_false]
  have hfn : (createMarkdownPost mat n).1 = filenameOf n := rfl
  simp only [hfn, h3, Bool.false_eq_true, if_false]

theorem c3_write_failure_witness :
    publishNotes (fun _ => false) (fun _ => none)
      [⟨strL "a", strL "x", [], ⟨2025, 1, 1, 0, 0, 0⟩⟩] = ([], false) :=
  c3_write_failure_stops_processing (fun _ => false) (fun _ => none)
    ⟨strL "a", strL "x", [], ⟨2025, 1, 1, 0, 0, 0⟩⟩ [] (by decide) (by decide) rfl

theorem findIdx_eq_none (sub : List Char) (hsub : sub ≠ []) :
    ∀ l, containsStr sub l = false → findIdx l sub = none := by
  intro l
  induction l with
  | nil =>
    intro _
    simp only [findIdx, List.isEmpty_eq_true, hsub, if_false]
  | cons c t ih =>
    intro h
    simp only [containsStr, Bool.or_eq_false_iff] at h
    simp only [findIdx, h.1, Bool.false_eq_true, if_false, ih h.2, Option.map_none']

theorem pyFind_eq_neg_one (l sub : List Char) (hsub : sub ≠ [])
    (h : containsStr sub l = false) : pyFind l sub = -1 := by
  unfold pyFind
  rw [findIdx_eq_none sub hsub l h]

theorem clampIdx_neg_one (len : Nat) : clampIdx len (-1) = len - 1 := by
  unfold clampIdx
  cases len with
  | zero => rfl
  | succ n =>
    norm_num

theorem clampIdx_nat (len k : Nat) : clampIdx len (k : Int) = min k len := by
  unfold clampIdx
  have h1 : ¬((k : Int) < 0) := by omega
  rw [if_neg h1, if_neg h1]
  simp

theorem pySliceTo_neg_one (s : List Char) : pySliceTo s (-1) = s.dropLast := by
  unfold pySliceTo
  rw [clampIdx_neg_one, List.dropLast_eq_take]

theorem pySlice_seven_neg_one (s : List Char) :
    pySlice s 7 (-1) = (s.drop 7).dropLast := by
  unfold pySlice
  rw [clampIdx_neg_one, show (7 : Int) = ((7 : Nat) : Int) from rfl, clampIdx_nat]
  rcases le_or_lt s.length 7 with h | h
  · rw [Nat.min_eq_right h]
    have h1 : List.drop s.length (s.take (s.length - 1)) = [] :=
      List.drop_eq_nil_of_le (by simp)
    have h2 : s.drop 7 = [] := List.drop_eq_nil_of_le h
    rw [h1, h2]
    rfl
  · rw [Nat.min_eq_left (by omega)]
    rw [List.dropLast_eq_take, List.take_drop, List.length_drop]
    have h3 : 7 + (s.length - 7 - 1) = s.length - 1 := by omega
    rw [h3]

theorem pySliceFrom_six (s : List Char) : pySliceFrom s 6 = s.drop 6 := by
  unfold pySliceFrom
  rw [show (6 : Int) = ((6 : Nat) : Int) from rfl, clampIdx_nat]
  rcases le_or_lt 6 s.length with h | h
  · rw [Nat.min_eq_left h]
  · rw [Nat.min_eq_right (by omega)]
    rw [List.drop_eq_nil_of_le le_rfl, List.drop_eq_nil_of_le (by omega)]

/-- C5 (amended).  A fragment containing neither the `content:` nor the
`images:` marker still yields a record and never aborts the batch, but
its fields do NOT default to empty: `str.find` returns `-1` and
Python's negative slicing then carves garbage — the title is the
fragment minus its last character, the content is characters 7
through second-to-last, and the images are parsed from character 6
onward. -/
theorem c5_missing_markers_parse (frag : List Char) (now : DateTime)
    (hc : containsStr (strL "content:") frag = false)
    (hi : containsStr (strL "images:") frag = false) :
    parseFragment frag now =
      ⟨pyStrip frag.dropLast, pyStrip (frag.drop 7).dropLast,
       parseImages (pyStrip (frag.drop 6)), now⟩ := by
  unfold parseFragment
  rw [pyFind_eq_neg_one frag (strL "content:") (by decide) hc,
    pyFind_eq_neg_one frag (strL "images:") (by decide) hi]
  dsimp only
  rw [show (-1 + 8 : Int) = ((7 : Nat) : Int) from rfl,
    show (-1 + 7 : Int) = ((6 : Nat) : Int) from rfl]
  rw [pySliceTo_neg_one]
  rw [show pySlice frag ((7 : Nat) : Int) (-1) = (frag.drop 7).dropLast from
    pySlice_seven_neg_one frag]
  rw [show pySliceFrom frag ((6 : Nat) : Int) = frag.drop 6 from
    pySliceFrom_six frag]

theorem c5_missing_markers_witness :
    parseFragment (strL "Hello world") ⟨2025, 1, 2, 3, 4, 5⟩ =
      ⟨strL "Hello worl", strL "orl", [strL "world"], ⟨2025, 1, 2, 3, 4, 5⟩⟩ := by
  rw [c5_missing_markers_parse (strL "Hello world") ⟨2025, 1, 2, 3, 4, 5⟩
    (by decide) (by decide)]
  decide
